import Mathlib

/-!
Shallow embedding of the `rutt` A* search engine (src/lib.rs, src/zero.rs).

Modelling conventions:
* The vertex type `V` carries `DecidableEq` (Rust: `Copy + Hash + Eq`); the cost
  type `C` carries `LinearOrder` (Rust: `Ord`), Mathlib's `Zero` (the crate's
  `Zero` trait, a bare zero constant with no laws) and `Add`.
* `FxHashMap` / `FxHashSet` are modelled as association lists / lists; only
  their membership and lookup behaviour is observable in the algorithm.
  `closed_set.insert` conses unconditionally; membership is unaffected and the
  list records one entry per insertion call.
* `BinaryHeap<Token<C>>` pops a token of minimal `priority` (the Rust `Ord`
  for `Token` reverses the comparison on the priority field, so the max-heap
  acts as a min-heap).  Tie order among equal priorities is unspecified in the
  source; the model deterministically takes the first minimal token in push
  order (most recent first).
* Every `unsafe { get_unchecked }` access and the uninitialised-buffer writes
  of path reconstruction are embedded checked: an out-of-bounds access yields
  the `invalidAccess` outcome.
* The loop is given explicit fuel; running out of fuel yields `fuelOut`,
  which has no Rust counterpart.
* The `neighbours` scratch buffer of `SearchContext` is modelled by calling
  the graph's pure neighbour function directly: the engine fully drains the
  buffer on every expansion, so it is empty whenever the implementor appends
  to it, and `(vertex, cost)` pairs seen by the loop are exactly the pairs
  the implementor pushes.
-/

namespace Rutt

/-- `usize::MAX` on a 64-bit target, the default `MAXITERATIONS`. -/
def USIZE_MAX : Nat := 2 ^ 64 - 1

/-- Arena node (src/lib.rs `struct Node<T, C>`): vertex, best-known
accumulated cost, depth from the start, optional parent arena index. -/
structure Node (V C : Type) where
  vertex : V
  distance : C
  steps : Nat
  parent : Option Nat
  deriving DecidableEq

/-- Frontier token (src/lib.rs `struct Token<C>(usize, C)`): arena index
paired with a priority (estimated total cost). -/
structure Token (C : Type) where
  idx : Nat
  priority : C
  deriving DecidableEq

/-- Search scratch state (src/lib.rs `struct SearchContext<T, C>`).  The
`neighbours` scratch buffer is not modelled (see module docstring). -/
structure SearchContext (V C : Type) where
  node_storage : List (Node V C)
  open_set : List (Token C)
  open_set_index : List (V × Nat)
  closed_set : List V
  deriving DecidableEq

/-- `SearchContext::default()`: all containers empty. -/
def SearchContext.default (V C : Type) : SearchContext V C :=
  { node_storage := [], open_set := [], open_set_index := [], closed_set := [] }

/-- `SearchContext::clear`: empties the frontier, the visited set, the
membership index and the arena (capacity retention is not observable). -/
def SearchContext.clear (_c : SearchContext V C) : SearchContext V C :=
  { node_storage := [], open_set := [], open_set_index := [], closed_set := [] }

/-- `FxHashMap::get` on the membership index, modelled on an association
list (later insertions are consed at the front and shadow older ones). -/
def lookup [DecidableEq V] : List (V × Nat) → V → Option Nat
  | [], _ => none
  | (w, i) :: rest, v => if v = w then some i else lookup rest v

/-- `BinaryHeap::pop`: remove and return a token of minimal priority
(the reversed `Ord` on `Token` makes the max-heap pop minimal priorities).
Ties are unspecified in the source; the model takes the first minimal
element in list order. -/
def popMin [LinearOrder C] : List (Token C) → Option (Token C × List (Token C))
  | [] => none
  | t :: ts =>
    match popMin ts with
    | none => some (t, ts)
    | some (u, rest) =>
      if t.priority ≤ u.priority then some (t, ts) else some (u, t :: rest)

/-- The caller-implemented graph capability (src/lib.rs `trait GraphSearch`):
heuristic estimator, neighbour enumeration, and the iteration cap with its
default of `usize::MAX`. -/
structure GraphSearch (V C : Type) where
  heuristic : V → V → C
  neighbours : V → List (V × C)
  MAXITERATIONS : Nat := USIZE_MAX

variable {V C : Type}

/-- State of the expansion loop: the scratch context plus the `iter`
expansion counter. -/
structure LoopState (V C : Type) where
  ctx : SearchContext V C
  iter : Nat
  deriving DecidableEq

/-- Read out the reconstruction buffer: every slot must have been written
(the release build would read uninitialised memory otherwise, and the debug
build asserts the write count equals the buffer size). -/
def collectSome : List (Option V) → Option (List V)
  | [] => some []
  | none :: _ => none
  | some v :: rest => (collectSome rest).map (fun l => v :: l)

/-- The path-reconstruction walk (src/lib.rs lines 157-170): follow parent
links from `next`, writing each node's vertex at buffer position
`node.steps`.  Checked embedding: an out-of-range arena index, a write past
the reserved buffer, or a parent chain longer than the fuel yields `none`
(the corresponding Rust accesses are unchecked). -/
def writeChain (arena : List (Node V C)) :
    Nat → Option Nat → List (Option V) → Option (List (Option V))
  | _, none, buf => some buf
  | 0, some _, _ => none
  | fuel + 1, some i, buf =>
    match arena[i]? with
    | none => none
    | some nd =>
      if nd.steps < buf.length then
        writeChain arena fuel nd.parent (buf.set nd.steps (some nd.vertex))
      else none

/-- Path reconstruction (src/lib.rs lines 150-180): reserve
`current.steps + 1` slots, walk parent links writing vertices by their
`steps` position, then fix the length.  The reserved-but-unwritten slots are
modelled as `Option` cells that must all be filled. -/
def reconstructPath (arena : List (Node V C)) (id : Nat) : Option (List V) :=
  match arena[id]? with
  | none => none
  | some current =>
    let buffer_size := current.steps + 1
    match writeChain arena arena.length (some id) (List.replicate buffer_size none) with
    | none => none
    | some buf => collectSome buf

variable [DecidableEq V] [LinearOrder C] [Zero C] [Add C]

/-- One neighbour of the loop body (src/lib.rs lines 192-222): skip visited
vertices, compute `g` and `cost`, then either relax an already-open vertex
(pushing a token that carries the *outer* `idx` binding from line 134, not
the neighbour's index) or append a fresh arena node.  `none` models the
out-of-bounds branch of the unchecked arena access. -/
def processNeighbour (g : GraphSearch V C) (goal : V) (idx : Nat) (id : Nat)
    (current_distance : C) (next_steps : Nat)
    (ctx : SearchContext V C) (vertex : V) (distance : C) :
    Option (SearchContext V C) :=
  if vertex ∈ ctx.closed_set then some ctx
  else
    let gCost := current_distance + distance
    let cost := gCost + g.heuristic vertex goal
    match lookup ctx.open_set_index vertex with
    | some index =>
      match ctx.node_storage[index]? with
      | none => none
      | some n =>
        if gCost < n.distance then
          some { ctx with
            node_storage := ctx.node_storage.set index { n with distance := gCost },
            open_set := ⟨idx, cost⟩ :: ctx.open_set }
        else some ctx
    | none =>
      let newIdx := ctx.node_storage.length
      some { ctx with
        node_storage := ctx.node_storage ++ [⟨vertex, gCost, next_steps, some id⟩],
        open_set := ⟨newIdx, cost⟩ :: ctx.open_set,
        open_set_index := (vertex, newIdx) :: ctx.open_set_index }

/-- The `for (vertex, distance) in context.neighbours.drain(..)` loop. -/
def processNeighbours (g : GraphSearch V C) (goal : V) (idx : Nat) (id : Nat)
    (current_distance : C) (next_steps : Nat) :
    List (V × C) → SearchContext V C → Option (SearchContext V C)
  | [], ctx => some ctx
  | (vertex, distance) :: rest, ctx =>
    match processNeighbour g goal idx id current_distance next_steps ctx vertex distance with
    | none => none
    | some ctx' => processNeighbours g goal idx id current_distance next_steps rest ctx'

/-- Result of one iteration of the `while let` loop. -/
inductive SearchStep (V C : Type) where
  /-- The function returns; the payload is the final contents of the output
  buffer (`none` when reconstruction performed an invalid access). -/
  | done : Option (List V) → SearchStep V C
  /-- The loop continues with the updated state. -/
  | next : LoopState V C → SearchStep V C
  /-- An unchecked arena access during expansion was out of bounds. -/
  | invalid : SearchStep V C

/-- One iteration of the expansion loop (src/lib.rs lines 147-223):
pop the minimal-priority token; on an empty frontier return with the output
buffer still empty; otherwise look the node up, run the termination check
(`current.vertex == goal || iter >= MAXITERATIONS`), and either reconstruct
the path from the popped node or mark it visited and expand its
neighbours.  `idx` is the binding of src/lib.rs line 134 captured by the
relaxation branch. -/
def searchStep (g : GraphSearch V C) (goal : V) (idx : Nat)
    (st : LoopState V C) : SearchStep V C :=
  match popMin st.ctx.open_set with
  | none => .done (some [])
  | some (t, rest) =>
    match st.ctx.node_storage[t.idx]? with
    | none => .invalid
    | some current =>
      if current.vertex = goal ∨ st.iter ≥ g.MAXITERATIONS then
        .done (reconstructPath st.ctx.node_storage t.idx)
      else
        let ctx1 : SearchContext V C :=
          { st.ctx with
            open_set := rest,
            closed_set := current.vertex :: st.ctx.closed_set }
        match processNeighbours g goal idx t.idx current.distance (current.steps + 1)
            (g.neighbours current.vertex) ctx1 with
        | none => .invalid
        | some ctx2 => .next ⟨ctx2, st.iter + 1⟩

/-- Observable outcome of a search: the final contents of the output path
buffer, or one of the two model-level failure markers. -/
inductive SearchOutcome (V : Type) where
  | ok : List V → SearchOutcome V
  | fuelOut : SearchOutcome V
  | invalidAccess : SearchOutcome V
  deriving DecidableEq

/-- The `while let Some(Token(id, _)) = context.open_set.pop()` loop,
driven by fuel. -/
def searchLoop (g : GraphSearch V C) (goal : V) (idx : Nat) :
    Nat → LoopState V C → SearchOutcome V
  | 0, _ => .fuelOut
  | fuel + 1, st =>
    match searchStep g goal idx st with
    | .done none => .invalidAccess
    | .done (some p) => .ok p
    | .invalid => .invalidAccess
    | .next st' => searchLoop g goal idx fuel st'

/-- Run `n` full loop iterations (for stating properties of every
intermediate state of a call). -/
def stepN (g : GraphSearch V C) (goal : V) (idx : Nat) :
    Nat → LoopState V C → Option (LoopState V C)
  | 0, st => some st
  | n + 1, st =>
    match searchStep g goal idx st with
    | .next st' => stepN g goal idx n st'
    | _ => none

/-- The loop state right after initialisation (src/lib.rs lines 131-145):
cleared context, the start vertex as arena node 0 with zero distance, no
parent and zero steps, its token on the frontier, `iter = 0`. -/
def initState (start : V) : LoopState V C :=
  { ctx :=
      { node_storage := [⟨start, 0, 0, none⟩],
        open_set := [⟨0, 0⟩],
        open_set_index := [],
        closed_set := [] },
    iter := 0 }

/-- `GraphSearch::find_path_with_context` (src/lib.rs lines 124-225).
`path` is the caller-supplied output buffer; it is cleared on entry, so its
incoming contents are discarded. -/
def find_path_with_context (g : GraphSearch V C) (context : SearchContext V C)
    (start goal : V) (path : List V) (fuel : Nat) : SearchOutcome V :=
  let context := context.clear
  let _path : List V := []
  let idx := context.node_storage.length
  let context :=
    { context with
      node_storage := context.node_storage ++ [⟨start, 0, 0, none⟩],
      open_set := ⟨idx, 0⟩ :: context.open_set }
  searchLoop g goal idx fuel ⟨context, 0⟩

/-- `GraphSearch::find_path` (src/lib.rs lines 115-122): fresh context and
fresh output buffer, delegate, return the buffer. -/
def find_path (g : GraphSearch V C) (start goal : V) (fuel : Nat) : SearchOutcome V :=
  find_path_with_context g (SearchContext.default V C) start goal [] fuel

/-- Walk `n` parent links from arena index `i` (specification helper for
the parent-chain invariant). -/
def parentWalk (arena : List (Node V C)) : Nat → Nat → Option Nat
  | 0, i => some i
  | n + 1, i =>
    match arena[i]? with
    | none => none
    | some nd =>
      match nd.parent with
      | none => none
      | some j => parentWalk arena n j

/-- The vertices on the parent chain of arena index `i`, in start-to-node
order (specification helper for path reconstruction). -/
def chainVertices (arena : List (Node V C)) : Nat → Nat → List V
  | 0, _ => []
  | fuel + 1, i =>
    match arena[i]? with
    | none => []
    | some nd =>
      match nd.parent with
      | none => [nd.vertex]
      | some j => chainVertices arena fuel j ++ [nd.vertex]

/-- Reachability along edges reported by the graph's neighbour operation. -/
inductive ReachG (g : GraphSearch V C) (s : V) : V → Prop where
  | refl : ReachG g s s
  | step {u v : V} {c : C} : ReachG g s u → (v, c) ∈ g.neighbours u → ReachG g s v

/-- Concrete three-vertex graph with edges 0→1 (cost 10), 0→2 (cost 1) and
2→1 (cost 1), zero heuristic: the cost-2 route 0,2,1 improves on the direct
cost-10 edge while vertex 1 is already open, which drives the engine through
its distance-relaxation branch. -/
def gBug : GraphSearch Nat Nat :=
  { heuristic := fun _ _ => 0,
    neighbours := fun v =>
      if v = 0 then [(1, 10), (2, 1)] else if v = 2 then [(1, 1)] else [] }

/-- Edgeless graph on `Nat`: every vertex other than the start is
unreachable. -/
def gEdgeless : GraphSearch Nat Nat :=
  { heuristic := fun _ _ => 0, neighbours := fun _ => [] }

/-- One-edge graph 0→2 whose iteration cap is 1. -/
def gCapOne : GraphSearch Nat Nat :=
  { heuristic := fun _ _ => 0,
    neighbours := fun v => if v = 0 then [(2, 1)] else [],
    MAXITERATIONS := 1 }

/-- One-edge graph 0→2 with the default (unbounded) iteration cap. -/
def gOneEdge : GraphSearch Nat Nat :=
  { heuristic := fun _ _ => 0,
    neighbours := fun v => if v = 0 then [(2, 1)] else [] }

/-- The loop-boundary invariants of `find_path_with_context`, minus the
neighbour-closure property of visited vertices (which is only restored at
the end of each full expansion, not during the neighbour fold). -/
structure InvCore (g : GraphSearch V C) (start goal : V)
    (ctx : SearchContext V C) : Prop where
  /-- Arena entry 0 is the start node: start vertex, zero steps, no parent. -/
  node0 : ∃ nd, ctx.node_storage[0]? = some nd ∧
    nd.vertex = start ∧ nd.steps = 0 ∧ nd.parent = none
  /-- Parent links point strictly downwards, decrease `steps` by one, and
  follow an edge reported by the neighbour operation. -/
  parent_prop : ∀ (i : Nat) (nd : Node V C) (j : Nat), ctx.node_storage[i]? = some nd → nd.parent = some j →
    j < i ∧ ∃ pd, ctx.node_storage[j]? = some pd ∧ nd.steps = pd.steps + 1 ∧
      ∃ c, (nd.vertex, c) ∈ g.neighbours pd.vertex
  /-- The start node is the unique arena entry without a parent. -/
  parent_none0 : ∀ (i : Nat) (nd : Node V C), ctx.node_storage[i]? = some nd → nd.parent = none → i = 0
  /-- Membership-index entries are valid positive arena indices of nodes
  holding the indexed vertex. -/
  index_valid : ∀ v i, lookup ctx.open_set_index v = some i →
    0 < i ∧ ∃ nd, ctx.node_storage[i]? = some nd ∧ nd.vertex = v
  /-- Every non-start arena node is registered in the membership index. -/
  indexed : ∀ (i : Nat) (nd : Node V C), ctx.node_storage[i]? = some nd → i ≠ 0 →
    lookup ctx.open_set_index nd.vertex = some i
  /-- Arena nodes hold pairwise distinct vertices. -/
  distinct : ∀ (i j : Nat) (ndi ndj : Node V C), ctx.node_storage[i]? = some ndi →
    ctx.node_storage[j]? = some ndj → ndi.vertex = ndj.vertex → i = j
  /-- Every frontier token references a valid arena index. -/
  token_valid : ∀ t ∈ ctx.open_set, t.idx < ctx.node_storage.length
  /-- An indexed, unvisited vertex has a live frontier token for its node. -/
  open_token : ∀ v i, lookup ctx.open_set_index v = some i → v ∉ ctx.closed_set →
    ∃ c, (⟨i, c⟩ : Token C) ∈ ctx.open_set
  /-- The start vertex is visited, or a token for arena index 0 is open. -/
  start_token : start ∈ ctx.closed_set ∨ ∃ c, (⟨0, c⟩ : Token C) ∈ ctx.open_set
  /-- Before the first expansion all tokens reference arena index 0. -/
  fresh_tokens : ctx.closed_set = [] → ∀ t ∈ ctx.open_set, t.idx = 0
  /-- Once anything is visited, the start vertex is visited. -/
  start_closed_first : ctx.closed_set ≠ [] → start ∈ ctx.closed_set
  /-- The goal vertex is never marked visited (the termination check
  returns before the insertion). -/
  goal_not_closed : goal ∉ ctx.closed_set
  /-- Every arena vertex is reachable from the start. -/
  reach_arena : ∀ (i : Nat) (nd : Node V C), ctx.node_storage[i]? = some nd → ReachG g start nd.vertex

/-- Full loop-boundary invariant: the core plus neighbour closure of the
visited set. -/
structure Inv (g : GraphSearch V C) (start goal : V)
    (ctx : SearchContext V C) extends InvCore g start goal ctx : Prop where
  /-- Every neighbour of a visited vertex is visited or indexed. -/
  closed_closure : ∀ v ∈ ctx.closed_set, ∀ w c, (w, c) ∈ g.neighbours v →
    w ∈ ctx.closed_set ∨ ∃ i, lookup ctx.open_set_index w = some i

/-- The loop state reached after one expansion of a search on `gOneEdge`
from start 0: vertex 0 expanded, vertex 2 discovered (used as a concrete
instantiation point). -/
def st1OneEdge : LoopState Nat Nat :=
  ⟨⟨[⟨0, 0, 0, none⟩, ⟨2, 1, 1, some 0⟩], [⟨1, 1⟩], [(2, 1)], [0]⟩, 1⟩

/-! ### Auxiliary list lemmas -/

lemma get?_set_self {α : Type} {l : List α} {i : Nat} {a : α} (h : i < l.length) :
    (l.set i a)[i]? = some a := by
  induction l generalizing i with
  | nil => simp at h
  | cons x xs ih =>
    cases i with
    | zero => simp
    | succ n => simpa using ih (by simpa using h)

lemma get?_set_ne {α : Type} {l : List α} {i j : Nat} {a : α} (h : i ≠ j) :
    (l.set i a)[j]? = l[j]? := by
  induction l generalizing i j with
  | nil => rfl
  | cons x xs ih =>
    cases i with
    | zero =>
      cases j with
      | zero => exact absurd rfl h
      | succ m => simp
    | succ n =>
      cases j with
      | zero => simp
      | succ m => simpa using ih (fun hh => h (by omega))

lemma drop_set_cons {α : Type} {l : List α} {k : Nat} {a : α} (h : k < l.length) :
    (l.set k a).drop k = a :: l.drop (k + 1) := by
  induction l generalizing k with
  | nil => simp at h
  | cons x xs ih =>
    cases k with
    | zero => simp
    | succ n => simpa using ih (by simpa using h)

lemma collectSome_map_some {l : List V} : collectSome (l.map some) = some l := by
  induction l with
  | nil => rfl
  | cons x xs ih => simp [collectSome, ih]

/-! ### Heap-pop lemmas -/

lemma popMin_none {l : List (Token C)} (h : popMin l = none) :
    l = [] := by
  cases l with
  | nil => rfl
  | cons t ts =>
    exfalso
    unfold popMin at h
    cases h' : popMin ts with
    | none => rw [h'] at h; cases h
    | some pr =>
      rcases pr with ⟨u, rest⟩
      rw [h'] at h
      dsimp at h
      split at h <;> cases h

lemma popMin_perm {l rest : List (Token C)} {t : Token C}
    (h : popMin l = some (t, rest)) : List.Perm l (t :: rest) := by
  induction l generalizing t rest with
  | nil => cases h
  | cons x xs ih =>
    unfold popMin at h
    cases h' : popMin xs with
    | none =>
      rw [h'] at h
      obtain ⟨rfl, rfl⟩ : x = t ∧ xs = rest := by
        simpa using h
      exact List.Perm.refl _
    | some pr =>
      rcases pr with ⟨u, r⟩
      rw [h'] at h
      dsimp at h
      by_cases hle : x.priority ≤ u.priority
      · rw [if_pos hle] at h
        obtain ⟨rfl, rfl⟩ : x = t ∧ xs = rest := by
          simpa using h
        exact List.Perm.refl _
      · rw [if_neg hle] at h
        obtain ⟨rfl, rfl⟩ : u = t ∧ x :: r = rest := by
          simpa using h
        have hx := ih h'
        exact (hx.cons x).trans (List.Perm.swap _ _ _)

lemma popMin_mem {l rest : List (Token C)} {t : Token C}
    (h : popMin l = some (t, rest)) : t ∈ l :=
  ((popMin_perm h).mem_iff).mpr (List.mem_cons_self t rest)

lemma popMin_rest_subset {l rest : List (Token C)} {t u : Token C}
    (h : popMin l = some (t, rest)) (hu : u ∈ rest) : u ∈ l :=
  ((popMin_perm h).mem_iff).mpr (List.mem_cons_of_mem t hu)

lemma popMin_mem_rest {l rest : List (Token C)} {t u : Token C}
    (h : popMin l = some (t, rest)) (hu : u ∈ l) (hne : u ≠ t) : u ∈ rest := by
  have := ((popMin_perm h).mem_iff).mp hu
  rcases List.mem_cons.mp this with h1 | h1
  · exact absurd h1 hne
  · exact h1

/-! ### Parent-chain and reconstruction lemmas -/

lemma head?_append_left {α : Type} {l l' : List α} (h : l ≠ []) :
    (l ++ l').head? = l.head? := by
  cases l with
  | nil => exact absurd rfl h
  | cons x xs => rfl

lemma get?_some_lt {α : Type} {l : List α} {i : Nat} {a : α} (h : l[i]? = some a) :
    i < l.length := by
  by_contra hc
  rw [List.getElem?_eq_none (by omega)] at h
  cases h

lemma chainVertices_fuel {arena : List (Node V C)}
    (hlt : ∀ (i : Nat) (nd : Node V C) (j : Nat), arena[i]? = some nd → nd.parent = some j → j < i) :
    ∀ i f₁ f₂, i < f₁ → i < f₂ →
      chainVertices arena f₁ i = chainVertices arena f₂ i := by
  intro i
  induction i using Nat.strong_induction_on with
  | _ i ih =>
    intro f₁ f₂ h1 h2
    cases f₁ with
    | zero => omega
    | succ a =>
      cases f₂ with
      | zero => omega
      | succ b =>
        cases hg : arena[i]? with
        | none => simp [chainVertices, hg]
        | some nd =>
          cases hp : nd.parent with
          | none => simp [chainVertices, hg, hp]
          | some j =>
            have hj := hlt i nd j hg hp
            simp only [chainVertices, hg, hp]
            rw [ih j hj a b (by omega) (by omega)]

lemma chainVertices_props {g : GraphSearch V C} {start : V} {arena : List (Node V C)}
    (h0 : ∃ nd, arena[0]? = some nd ∧
      nd.vertex = start ∧ nd.steps = 0 ∧ nd.parent = none)
    (hpar : ∀ (i : Nat) (nd : Node V C) (j : Nat), arena[i]? = some nd → nd.parent = some j →
      j < i ∧ ∃ pd, arena[j]? = some pd ∧ nd.steps = pd.steps + 1 ∧
        ∃ c, (nd.vertex, c) ∈ g.neighbours pd.vertex)
    (hp0 : ∀ (i : Nat) (nd : Node V C), arena[i]? = some nd → nd.parent = none → i = 0) :
    ∀ (i : Nat) (nd : Node V C), arena[i]? = some nd →
      chainVertices arena (i + 1) i ≠ [] ∧
      (chainVertices arena (i + 1) i).head? = some start ∧
      (chainVertices arena (i + 1) i).getLast? = some nd.vertex ∧
      List.Chain' (fun u v => ∃ c, (v, c) ∈ g.neighbours u)
        (chainVertices arena (i + 1) i) ∧
      (chainVertices arena (i + 1) i).length = nd.steps + 1 := by
  intro i
  induction i using Nat.strong_induction_on with
  | _ i ih =>
    intro nd hget
    cases hp : nd.parent with
    | none =>
      simp only [chainVertices, hget, hp]
      have hi0 : i = 0 := hp0 i nd hget hp
      subst hi0
      obtain ⟨nd0, hg0, hv0, hs0, _⟩ := h0
      rw [hget] at hg0
      obtain rfl : nd0 = nd := by
        simpa using hg0.symm
      refine ⟨by simp, by simp [hv0], by simp, by simp, by simp [hs0]⟩
    | some j =>
      simp only [chainVertices, hget, hp]
      obtain ⟨hji, pd, hgj, hst, c, hedge⟩ := hpar i nd j hget hp
      have hfuel : chainVertices arena i j = chainVertices arena (j + 1) j :=
        chainVertices_fuel (fun a b c' h1 h2 => (hpar a b c' h1 h2).1) j i (j + 1)
          hji (by omega)
      rw [hfuel]
      obtain ⟨hne, hhead, hlast, hchain, hlen⟩ := ih j hji pd hgj
      refine ⟨by simp, ?_, ?_, ?_, ?_⟩
      · rw [head?_append_left hne]; exact hhead
      · exact List.getLast?_concat _
      · rw [List.chain'_append]
        refine ⟨hchain, List.chain'_singleton _, ?_⟩
        intro x hx y hy
        rw [hlast] at hx
        simp only [Option.mem_def, Option.some.injEq] at hx
        simp only [List.head?_cons, Option.mem_def, Option.some.injEq] at hy
        subst hx; subst hy
        exact ⟨c, hedge⟩
      · simp [hlen, hst]

lemma writeChain_eq {arena : List (Node V C)}
    (hlt : ∀ (i : Nat) (nd : Node V C) (j : Nat), arena[i]? = some nd → nd.parent = some j → j < i)
    (hsteps : ∀ (i : Nat) (nd : Node V C) (j : Nat), arena[i]? = some nd → nd.parent = some j →
      ∃ pd, arena[j]? = some pd ∧ nd.steps = pd.steps + 1)
    (hsteps0 : ∀ (i : Nat) (nd : Node V C), arena[i]? = some nd → nd.parent = none → nd.steps = 0) :
    ∀ (i : Nat) (nd : Node V C) (b : List (Option V)) (fuel : Nat), arena[i]? = some nd →
      nd.steps < b.length → i < fuel →
      writeChain arena fuel (some i) b =
        some ((chainVertices arena (i + 1) i).map some ++ b.drop (nd.steps + 1)) := by
  intro i
  induction i using Nat.strong_induction_on with
  | _ i ih =>
    intro nd b fuel hget hlen hfuel
    cases fuel with
    | zero => omega
    | succ f =>
      cases hp : nd.parent with
      | none =>
        simp only [writeChain, hget]
        rw [if_pos hlen]
        simp only [chainVertices, hget, hp]
        have hs0 : nd.steps = 0 := hsteps0 i nd hget hp
        rw [hs0]
        have : b.set 0 (some nd.vertex) = some nd.vertex :: b.drop 1 := by
          have := @drop_set_cons (Option V) b 0 (some nd.vertex) (by omega)
          simpa using this
        simp [writeChain, this, hp]
      | some j =>
        simp only [writeChain, hget]
        rw [if_pos hlen]
        simp only [chainVertices, hget, hp]
        obtain ⟨pd, hgj, hst⟩ := hsteps i nd j hget hp
        have hji : j < i := hlt i nd j hget hp
        have ihj := ih j hji pd (b.set nd.steps (some nd.vertex)) f hgj
          (by rw [List.length_set]; omega) (by omega)
        rw [ihj]
        have hdrop : (b.set nd.steps (some nd.vertex)).drop (pd.steps + 1) =
            some nd.vertex :: b.drop (nd.steps + 1) := by
          have := @drop_set_cons (Option V) b nd.steps (some nd.vertex) hlen
          rw [hst]
          simpa [hst] using this
        rw [hdrop]
        have hfuel2 : chainVertices arena i j = chainVertices arena (j + 1) j :=
          chainVertices_fuel hlt j i (j + 1) hji (by omega)
        rw [hfuel2]
        simp

lemma reconstructPath_eq {arena : List (Node V C)}
    (hlt : ∀ (i : Nat) (nd : Node V C) (j : Nat), arena[i]? = some nd → nd.parent = some j → j < i)
    (hsteps : ∀ (i : Nat) (nd : Node V C) (j : Nat), arena[i]? = some nd → nd.parent = some j →
      ∃ pd, arena[j]? = some pd ∧ nd.steps = pd.steps + 1)
    (hsteps0 : ∀ (i : Nat) (nd : Node V C), arena[i]? = some nd → nd.parent = none → nd.steps = 0)
    {id : Nat} {nd : Node V C} (hget : arena[id]? = some nd) :
    reconstructPath arena id = some (chainVertices arena (id + 1) id) := by
  unfold reconstructPath
  rw [hget]
  have hid : id < arena.length := get?_some_lt hget
  have hwc := writeChain_eq hlt hsteps hsteps0 id nd
    (List.replicate (nd.steps + 1) none) arena.length hget (by simp) hid
  simp only []
  rw [hwc]
  rw [List.drop_replicate]
  simp [collectSome_map_some]

/-! ### Append lemmas for the growing arena -/

lemma get?_append_left' {α : Type} {l : List α} {a : α} {i : Nat} (h : i < l.length) :
    (l ++ [a])[i]? = l[i]? := by
  induction l generalizing i with
  | nil => simp at h
  | cons x xs ih =>
    cases i with
    | zero => simp
    | succ n => simpa using ih (by simpa using h)

lemma get?_append_length {α : Type} {l : List α} {a : α} :
    (l ++ [a])[l.length]? = some a := by
  induction l with
  | nil => simp
  | cons x xs ih => simpa using ih

lemma get?_append_cases {α : Type} {l : List α} {a b : α} {i : Nat}
    (h : (l ++ [a])[i]? = some b) :
    (i < l.length ∧ l[i]? = some b) ∨ (i = l.length ∧ b = a) := by
  rcases Nat.lt_trichotomy i l.length with hlt | heq | hgt
  · exact Or.inl ⟨hlt, by rwa [get?_append_left' hlt] at h⟩
  · subst heq
    rw [get?_append_length] at h
    exact Or.inr ⟨rfl, (Option.some.inj h).symm⟩
  · exfalso
    rw [List.getElem?_eq_none (by simp; omega)] at h
    cases h

/-! ### Branch equations for `processNeighbour` -/

lemma processNeighbour_closed {g : GraphSearch V C} {goal v : V} {idxTok id : Nat}
    {cd c : C} {ns : Nat} {ctx : SearchContext V C} (hv : v ∈ ctx.closed_set) :
    processNeighbour g goal idxTok id cd ns ctx v c = some ctx := by
  simp [processNeighbour, hv]

lemma processNeighbour_relax {g : GraphSearch V C} {goal v : V} {idxTok id : Nat}
    {cd c : C} {ns : Nat} {ctx : SearchContext V C} {index : Nat} {n : Node V C}
    (hv : v ∉ ctx.closed_set)
    (hl : lookup ctx.open_set_index v = some index)
    (hgi : ctx.node_storage[index]? = some n)
    (hlt : cd + c < n.distance) :
    processNeighbour g goal idxTok id cd ns ctx v c =
      some { ctx with
        node_storage := ctx.node_storage.set index { n with distance := cd + c },
        open_set := ⟨idxTok, cd + c + g.heuristic v goal⟩ :: ctx.open_set } := by
  simp [processNeighbour, hv, hl, hgi, hlt]

lemma processNeighbour_noRelax {g : GraphSearch V C} {goal v : V} {idxTok id : Nat}
    {cd c : C} {ns : Nat} {ctx : SearchContext V C} {index : Nat} {n : Node V C}
    (hv : v ∉ ctx.closed_set)
    (hl : lookup ctx.open_set_index v = some index)
    (hgi : ctx.node_storage[index]? = some n)
    (hge : ¬ cd + c < n.distance) :
    processNeighbour g goal idxTok id cd ns ctx v c = some ctx := by
  simp [processNeighbour, hv, hl, hgi, hge]

lemma processNeighbour_fresh {g : GraphSearch V C} {goal v : V} {idxTok id : Nat}
    {cd c : C} {ns : Nat} {ctx : SearchContext V C}
    (hv : v ∉ ctx.closed_set)
    (hl : lookup ctx.open_set_index v = none) :
    processNeighbour g goal idxTok id cd ns ctx v c =
      some { ctx with
        node_storage := ctx.node_storage ++ [⟨v, cd + c, ns, some id⟩],
        open_set :=
          ⟨ctx.node_storage.length, cd + c + g.heuristic v goal⟩ :: ctx.open_set,
        open_set_index := (v, ctx.node_storage.length) :: ctx.open_set_index } := by
  simp [processNeighbour, hv, hl]

/-! ### Invariant preservation through the neighbour fold -/

lemma processNeighbour_sound {g : GraphSearch V C} {start goal : V}
    {ctx : SearchContext V C} {idxTok id : Nat} {cd c : C} {ns : Nat} {cv v : V}
    (hcore : InvCore g start goal ctx)
    (hidx : idxTok < ctx.node_storage.length)
    (hstart : start ∈ ctx.closed_set)
    (hcur : ∃ ndc, ctx.node_storage[id]? = some ndc ∧ ndc.vertex = cv ∧ ndc.steps + 1 = ns)
    (hcv : cv ∈ ctx.closed_set)
    (hedge : (v, c) ∈ g.neighbours cv)
    (hreach : ReachG g start cv) :
    ∃ ctx', processNeighbour g goal idxTok id cd ns ctx v c = some ctx' ∧
      InvCore g start goal ctx' ∧
      ctx'.closed_set = ctx.closed_set ∧
      ctx.node_storage.length ≤ ctx'.node_storage.length ∧
      (∀ w i, lookup ctx.open_set_index w = some i →
        lookup ctx'.open_set_index w = some i) ∧
      (∀ t ∈ ctx.open_set, t ∈ ctx'.open_set) ∧
      (∀ (i : Nat) (nd : Node V C), ctx.node_storage[i]? = some nd →
        ∃ nd', ctx'.node_storage[i]? = some nd' ∧ nd'.vertex = nd.vertex ∧
          nd'.steps = nd.steps ∧ nd'.parent = nd.parent) ∧
      (v ∈ ctx.closed_set ∨ ∃ i, lookup ctx'.open_set_index v = some i) := by
  by_cases hv : v ∈ ctx.closed_set
  · refine ⟨ctx, processNeighbour_closed hv, hcore, rfl, le_refl _, fun _ _ h => h,
      fun _ h => h, fun i nd h => ⟨nd, h, rfl, rfl, rfl⟩, Or.inl hv⟩
  cases hl : lookup ctx.open_set_index v with
  | some index =>
    obtain ⟨hipos, n, hgi, hnv⟩ := hcore.index_valid v index hl
    by_cases hlt : cd + c < n.distance
    · -- relaxation branch: distance lowered in place, token for `idxTok` pushed
      have hilen : index < ctx.node_storage.length := get?_some_lt hgi
      have hmono : ∀ (i : Nat) (nd : Node V C), ctx.node_storage[i]? = some nd →
          ∃ nd', (ctx.node_storage.set index { n with distance := cd + c })[i]? =
              some nd' ∧ nd'.vertex = nd.vertex ∧
            nd'.steps = nd.steps ∧ nd'.parent = nd.parent := by
        intro i nd h
        by_cases hii : i = index
        · subst hii
          rw [hgi] at h
          obtain rfl : n = nd := Option.some.inj h
          exact ⟨{ n with distance := cd + c }, get?_set_self hilen, rfl, rfl, rfl⟩
        · exact ⟨nd, by rw [get?_set_ne (fun hh => hii hh.symm)]; exact h,
            rfl, rfl, rfl⟩
      have hmono' : ∀ (i : Nat) (nd' : Node V C),
          (ctx.node_storage.set index { n with distance := cd + c })[i]? = some nd' →
          ∃ nd, ctx.node_storage[i]? = some nd ∧ nd.vertex = nd'.vertex ∧
            nd.steps = nd'.steps ∧ nd.parent = nd'.parent := by
        intro i nd' h
        by_cases hii : i = index
        · subst hii
          rw [get?_set_self hilen] at h
          obtain rfl : { n with distance := cd + c } = nd' := Option.some.inj h
          exact ⟨n, hgi, rfl, rfl, rfl⟩
        · rw [get?_set_ne (fun hh => hii hh.symm)] at h
          exact ⟨nd', h, rfl, rfl, rfl⟩
      refine ⟨_, processNeighbour_relax hv hl hgi hlt, ?_, rfl, by simp,
        fun _ _ h => h, fun t ht => List.mem_cons_of_mem _ ht, hmono,
        Or.inr ⟨index, hl⟩⟩
      refine ⟨?_, ?_, ?_, ?_, ?_, ?_, ?_, ?_, ?_, ?_, ?_, ?_, ?_⟩
      · obtain ⟨nd0, h0, hv0, hs0, hp0⟩ := hcore.node0
        obtain ⟨nd0', h0', hv', hs', hp'⟩ := hmono 0 nd0 h0
        exact ⟨nd0', h0', by rw [hv', hv0], by rw [hs', hs0], by rw [hp', hp0]⟩
      · intro i nd j hget hpar
        obtain ⟨nd1, hget1, hv1, hs1, hp1⟩ := hmono' i nd hget
        obtain ⟨hji, pd, hgj, hst, cc, hcc⟩ :=
          hcore.parent_prop i nd1 j hget1 (by rw [hp1, hpar])
        obtain ⟨pd', hgj', hvv, hss, hpp⟩ := hmono j pd hgj
        exact ⟨hji, pd', hgj', by omega, cc, by rw [hvv, ← hv1]; exact hcc⟩
      · intro i nd hget hpar
        obtain ⟨nd1, hget1, hv1, hs1, hp1⟩ := hmono' i nd hget
        exact hcore.parent_none0 i nd1 hget1 (by rw [hp1, hpar])
      · intro w i hw
        obtain ⟨hip, nd, hnd, hvv⟩ := hcore.index_valid w i hw
        obtain ⟨nd', hnd', hv', _, _⟩ := hmono i nd hnd
        exact ⟨hip, nd', hnd', by rw [hv', hvv]⟩
      · intro i nd hget hne
        obtain ⟨nd1, hget1, hv1, _, _⟩ := hmono' i nd hget
        rw [← hv1]
        exact hcore.indexed i nd1 hget1 hne
      · intro i j ndi ndj hgi' hgj' hvv
        obtain ⟨ndi1, hgi1, hvi, _, _⟩ := hmono' i ndi hgi'
        obtain ⟨ndj1, hgj1, hvj, _, _⟩ := hmono' j ndj hgj'
        exact hcore.distinct i j ndi1 ndj1 hgi1 hgj1 (by rw [hvi, hvj, hvv])
      · intro t ht
        rcases List.mem_cons.mp ht with rfl | ht
        · simpa using hidx
        · have := hcore.token_valid t ht
          simpa using this
      · intro w i hw hwc
        obtain ⟨cc, hcc⟩ := hcore.open_token w i hw hwc
        exact ⟨cc, List.mem_cons_of_mem _ hcc⟩
      · exact Or.inl hstart
      · intro hemp
        exact absurd hemp (List.ne_nil_of_mem hstart)
      · intro _
        exact hstart
      · exact hcore.goal_not_closed
      · intro i nd hget
        obtain ⟨nd1, hget1, hv1, _, _⟩ := hmono' i nd hget
        rw [← hv1]
        exact hcore.reach_arena i nd1 hget1
    · refine ⟨ctx, processNeighbour_noRelax hv hl hgi hlt, hcore, rfl, le_refl _,
        fun _ _ h => h, fun _ h => h, fun i nd h => ⟨nd, h, rfl, rfl, rfl⟩,
        Or.inr ⟨index, hl⟩⟩
  | none =>
    -- fresh-vertex branch: new arena node, index entry and token
    obtain ⟨ndc, hgc, hcv', hns⟩ := hcur
    have hidlen : id < ctx.node_storage.length := get?_some_lt hgc
    obtain ⟨nd0, h00, hv00, hs00, hp00⟩ := hcore.node0
    have hlen0 : 0 < ctx.node_storage.length := get?_some_lt h00
    have hvertex_ne : ∀ (i : Nat) (nd : Node V C), ctx.node_storage[i]? = some nd →
        nd.vertex ≠ v := by
      intro i nd hget hvv
      by_cases hi0 : i = 0
      · subst hi0
        rw [h00] at hget
        obtain rfl := Option.some.inj hget
        apply hv
        have hveq : v = start := by rw [← hvv, hv00]
        rw [hveq]
        exact hstart
      · have := hcore.indexed i nd hget hi0
        rw [hvv, hl] at this
        cases this
    refine ⟨_, processNeighbour_fresh hv hl, ?_, rfl, by simp, ?_,
      fun t ht => List.mem_cons_of_mem _ ht, ?_,
      Or.inr ⟨ctx.node_storage.length, by simp [lookup]⟩⟩
    · -- the InvCore fields for the extended context
      refine ⟨?_, ?_, ?_, ?_, ?_, ?_, ?_, ?_, ?_, ?_, ?_, ?_, ?_⟩
      · exact ⟨nd0, (get?_append_left' hlen0).trans h00, hv00, hs00, hp00⟩
      · intro i nd j hget hpar
        rcases get?_append_cases hget with ⟨hilt, hold⟩ | ⟨hieq, hnd⟩
        · obtain ⟨hji, pd, hgj, hst, cc, hcc⟩ := hcore.parent_prop i nd j hold hpar
          exact ⟨hji, pd, (get?_append_left' (lt_trans hji hilt)).trans hgj, hst, cc, hcc⟩
        · subst hnd
          subst hieq
          have hj : some id = some j := hpar
          obtain rfl : j = id := (Option.some.inj hj).symm
          refine ⟨hidlen, ndc, (get?_append_left' hidlen).trans hgc, ?_, c, ?_⟩
          · show ns = ndc.steps + 1
            omega
          · show ((v, c) : V × C) ∈ g.neighbours ndc.vertex
            rw [hcv']
            exact hedge
      · intro i nd hget hpar
        rcases get?_append_cases hget with ⟨hilt, hold⟩ | ⟨hieq, hnd⟩
        · exact hcore.parent_none0 i nd hold hpar
        · subst hnd
          simp at hpar
      · intro w i hw
        by_cases hwv : w = v
        · subst hwv
          have hsome : some ctx.node_storage.length = some i := by
            simpa [lookup] using hw
          obtain rfl := Option.some.inj hsome
          exact ⟨hlen0, _, get?_append_length, rfl⟩
        · have hw' : lookup ctx.open_set_index w = some i := by
            simpa [lookup, hwv] using hw
          obtain ⟨hip, nd, hnd, hvv⟩ := hcore.index_valid w i hw'
          exact ⟨hip, nd, (get?_append_left' (get?_some_lt hnd)).trans hnd, hvv⟩
      · intro i nd hget hne
        rcases get?_append_cases hget with ⟨hilt, hold⟩ | ⟨hieq, hnd⟩
        · have hnv := hvertex_ne i nd hold
          have := hcore.indexed i nd hold hne
          simpa [lookup, hnv] using this
        · subst hnd
          subst hieq
          show lookup ((v, ctx.node_storage.length) :: ctx.open_set_index)
            (⟨v, cd + c, ns, some id⟩ : Node V C).vertex =
            some ctx.node_storage.length
          simp [lookup]
      · intro i j ndi ndj hgi' hgj' hvv
        rcases get?_append_cases hgi' with ⟨hilt, holdi⟩ | ⟨hieq, hndi⟩ <;>
          rcases get?_append_cases hgj' with ⟨hjlt, holdj⟩ | ⟨hjeq, hndj⟩
        · exact hcore.distinct i j ndi ndj holdi holdj hvv
        · exfalso
          subst hndj
          exact hvertex_ne i ndi holdi (by simpa using hvv)
        · exfalso
          subst hndi
          exact hvertex_ne j ndj holdj (by simpa using hvv.symm)
        · omega
      · intro t ht
        rcases List.mem_cons.mp ht with rfl | ht
        · simp
        · have := hcore.token_valid t ht
          simp only [List.length_append, List.length_singleton]
          omega
      · intro w i hw hwc
        by_cases hwv : w = v
        · subst hwv
          have hsome : some ctx.node_storage.length = some i := by
            simpa [lookup] using hw
          obtain rfl := Option.some.inj hsome
          exact ⟨_, List.mem_cons_self _ _⟩
        · have hw' : lookup ctx.open_set_index w = some i := by
            simpa [lookup, hwv] using hw
          obtain ⟨cc, hcc⟩ := hcore.open_token w i hw' hwc
          exact ⟨cc, List.mem_cons_of_mem _ hcc⟩
      · exact Or.inl hstart
      · intro hemp
        exact absurd hemp (List.ne_nil_of_mem hstart)
      · intro _
        exact hstart
      · exact hcore.goal_not_closed
      · intro i nd hget
        rcases get?_append_cases hget with ⟨hilt, hold⟩ | ⟨hieq, hnd⟩
        · exact hcore.reach_arena i nd hold
        · subst hnd
          show ReachG g start (⟨v, cd + c, ns, some id⟩ : Node V C).vertex
          exact ReachG.step hreach hedge
    · -- membership-index monotonicity
      intro w i hw
      have hwv : w ≠ v := by
        intro hh
        rw [hh, hl] at hw
        cases hw
      simpa [lookup, hwv] using hw
    · -- existing arena entries are untouched by the append
      intro i nd h
      exact ⟨nd, (get?_append_left' (get?_some_lt h)).trans h, rfl, rfl, rfl⟩

lemma processNeighbours_sound {g : GraphSearch V C} {start goal : V} {idxTok id : Nat}
    {cd : C} {ns : Nat} {cv : V} :
    ∀ (l : List (V × C)) (ctx : SearchContext V C),
      InvCore g start goal ctx →
      idxTok < ctx.node_storage.length →
      start ∈ ctx.closed_set →
      (∃ ndc, ctx.node_storage[id]? = some ndc ∧ ndc.vertex = cv ∧ ndc.steps + 1 = ns) →
      cv ∈ ctx.closed_set →
      (∀ vc ∈ l, vc ∈ g.neighbours cv) →
      ReachG g start cv →
      ∃ ctx', processNeighbours g goal idxTok id cd ns l ctx = some ctx' ∧
        InvCore g start goal ctx' ∧
        ctx'.closed_set = ctx.closed_set ∧
        (∀ w i, lookup ctx.open_set_index w = some i →
          lookup ctx'.open_set_index w = some i) ∧
        (∀ t ∈ ctx.open_set, t ∈ ctx'.open_set) ∧
        (∀ vc ∈ l, vc.1 ∈ ctx.closed_set ∨
          ∃ i, lookup ctx'.open_set_index vc.1 = some i) := by
  intro l
  induction l with
  | nil =>
    intro ctx hcore _ _ _ _ _ _
    exact ⟨ctx, rfl, hcore, rfl, fun _ _ h => h, fun _ h => h, by simp⟩
  | cons vc rest ih =>
    rcases vc with ⟨v, c⟩
    intro ctx hcore hidx hstart hcur hcv hsub hreach
    obtain ⟨ctx1, heq1, hcore1, hcl1, hlen1, hlk1, htk1, hnm1, hproc1⟩ :=
      processNeighbour_sound hcore hidx hstart hcur hcv
        (hsub (v, c) (List.mem_cons_self _ _)) hreach
    obtain ⟨ndc, hgc, hcvv, hns⟩ := hcur
    obtain ⟨ndc1, hgc1, hv1, hs1, _⟩ := hnm1 id ndc hgc
    obtain ⟨ctx2, heq2, hcore2, hcl2, hlk2, htk2, hproc2⟩ :=
      ih ctx1 hcore1 (lt_of_lt_of_le hidx hlen1)
        (by rw [hcl1]; exact hstart)
        ⟨ndc1, hgc1, by rw [hv1, hcvv], by rw [hs1]; exact hns⟩
        (by rw [hcl1]; exact hcv)
        (fun vc hvc => hsub vc (List.mem_cons_of_mem _ hvc))
        hreach
    refine ⟨ctx2, ?_, hcore2, by rw [hcl2, hcl1],
      fun w i h => hlk2 w i (hlk1 w i h),
      fun t ht => htk2 t (htk1 t ht), ?_⟩
    · show processNeighbours g goal idxTok id cd ns ((v, c) :: rest) ctx = some ctx2
      unfold processNeighbours
      rw [heq1]
      exact heq2
    · intro vc hvc
      rcases List.mem_cons.mp hvc with rfl | hvc
      · rcases hproc1 with hle | ⟨i, hi⟩
        · exact Or.inl hle
        · exact Or.inr ⟨i, hlk2 _ _ hi⟩
      · rcases hproc2 vc hvc with hle | hri
        · exact Or.inl (by rw [← hcl1]; exact hle)
        · exact Or.inr hri

/-! ### Soundness of one loop iteration -/

lemma searchStep_sound {g : GraphSearch V C} {start goal : V} {ctx : SearchContext V C}
    (it : Nat) (hInv : Inv g start goal ctx) :
    (popMin ctx.open_set = none ∧
      searchStep g goal 0 ⟨ctx, it⟩ = SearchStep.done (some [])) ∨
    (∃ t rest current, popMin ctx.open_set = some (t, rest) ∧
      ctx.node_storage[t.idx]? = some current ∧
      (current.vertex = goal ∨ it ≥ g.MAXITERATIONS) ∧
      searchStep g goal 0 ⟨ctx, it⟩ =
        SearchStep.done (some (chainVertices ctx.node_storage (t.idx + 1) t.idx)) ∧
      chainVertices ctx.node_storage (t.idx + 1) t.idx ≠ [] ∧
      (chainVertices ctx.node_storage (t.idx + 1) t.idx).head? = some start ∧
      (chainVertices ctx.node_storage (t.idx + 1) t.idx).getLast? =
        some current.vertex ∧
      List.Chain' (fun u w => ∃ cc, (w, cc) ∈ g.neighbours u)
        (chainVertices ctx.node_storage (t.idx + 1) t.idx)) ∨
    (∃ ctx2, searchStep g goal 0 ⟨ctx, it⟩ = SearchStep.next ⟨ctx2, it + 1⟩ ∧
      Inv g start goal ctx2) := by
  have hlt : ∀ (i : Nat) (nd : Node V C) (j : Nat), ctx.node_storage[i]? = some nd →
      nd.parent = some j → j < i :=
    fun i nd j h1 h2 => (hInv.parent_prop i nd j h1 h2).1
  have hsteps : ∀ (i : Nat) (nd : Node V C) (j : Nat), ctx.node_storage[i]? = some nd →
      nd.parent = some j →
      ∃ pd, ctx.node_storage[j]? = some pd ∧ nd.steps = pd.steps + 1 := by
    intro i nd j h1 h2
    obtain ⟨_, pd, hgj, hst, _⟩ := hInv.parent_prop i nd j h1 h2
    exact ⟨pd, hgj, hst⟩
  have hsteps0 : ∀ (i : Nat) (nd : Node V C), ctx.node_storage[i]? = some nd →
      nd.parent = none → nd.steps = 0 := by
    intro i nd h1 h2
    have hi0 := hInv.parent_none0 i nd h1 h2
    subst hi0
    obtain ⟨nd0, h0, _, hs0, _⟩ := hInv.node0
    rw [h0] at h1
    obtain rfl := Option.some.inj h1
    exact hs0
  cases hpop : popMin ctx.open_set with
  | none =>
    exact Or.inl ⟨rfl, by simp [searchStep, hpop]⟩
  | some pr =>
    rcases pr with ⟨t, rest⟩
    have htl : t.idx < ctx.node_storage.length :=
      hInv.token_valid t (popMin_mem hpop)
    obtain ⟨current, hg⟩ : ∃ nd, ctx.node_storage[t.idx]? = some nd :=
      ⟨_, List.getElem?_eq_getElem htl⟩
    by_cases hterm : current.vertex = goal ∨ it ≥ g.MAXITERATIONS
    · have hrec : reconstructPath ctx.node_storage t.idx =
          some (chainVertices ctx.node_storage (t.idx + 1) t.idx) :=
        reconstructPath_eq hlt hsteps hsteps0 hg
      obtain ⟨hne, hhead, hlast, hchain, _⟩ :=
        chainVertices_props hInv.node0 hInv.parent_prop hInv.parent_none0 t.idx
          current hg
      refine Or.inr (Or.inl ⟨t, rest, current, rfl, hg, hterm, ?_, hne, hhead,
        hlast, hchain⟩)
      simp only [searchStep, hpop, hg]
      rw [if_pos hterm, hrec]
    · -- expansion step: close the vertex and fold over the neighbours
      have hcvgoal : current.vertex ≠ goal := fun hh => hterm (Or.inl hh)
      obtain ⟨nd0, h00, hv00, hs00, hp00⟩ := hInv.node0
      have hlen0 : 0 < ctx.node_storage.length := get?_some_lt h00
      have hvstart : t.idx = 0 → current.vertex = start := by
        intro h0
        rw [h0] at hg
        rw [h00] at hg
        obtain rfl := Option.some.inj hg
        exact hv00
      have hcore1 : InvCore g start goal
          (SearchContext.mk ctx.node_storage rest ctx.open_set_index
            (current.vertex :: ctx.closed_set)) := by
        refine ⟨hInv.node0, hInv.parent_prop, hInv.parent_none0, hInv.index_valid,
          hInv.indexed, hInv.distinct, ?_, ?_, ?_, ?_, ?_, ?_, hInv.reach_arena⟩
        · intro u hu
          exact hInv.token_valid u (popMin_rest_subset hpop hu)
        · intro w i hw hwc
          have hwcl : w ∉ ctx.closed_set := fun hh =>
            hwc (List.mem_cons_of_mem _ hh)
          have hwcv : w ≠ current.vertex := fun hh =>
            hwc (by rw [hh]; exact List.mem_cons_self _ _)
          obtain ⟨cc, hcc⟩ := hInv.open_token w i hw hwcl
          refine ⟨cc, popMin_mem_rest hpop hcc ?_⟩
          intro hh
          apply hwcv
          obtain ⟨_, nd, hnd, hvv⟩ := hInv.index_valid w i hw
          have hidx : i = t.idx := by rw [← hh]
          rw [hidx, hg] at hnd
          obtain rfl := Option.some.inj hnd
          exact hvv.symm
        · rcases hInv.start_token with hs | ⟨cc, hcc⟩
          · exact Or.inl (List.mem_cons_of_mem _ hs)
          · by_cases h0 : t.idx = 0
            · exact Or.inl (by rw [hvstart h0]; exact List.mem_cons_self _ _)
            · refine Or.inr ⟨cc, popMin_mem_rest hpop hcc ?_⟩
              intro hh
              apply h0
              rw [← hh]
        · intro hemp
          simp at hemp
        · intro _
          by_cases hc0 : ctx.closed_set = []
          · have h0 : t.idx = 0 :=
              hInv.fresh_tokens hc0 t (popMin_mem hpop)
            exact (by rw [hvstart h0]; exact List.mem_cons_self _ _)
          · exact List.mem_cons_of_mem _ (hInv.start_closed_first hc0)
        · intro hgc
          rcases List.mem_cons.mp hgc with hh | hh
          · exact hcvgoal hh.symm
          · exact hInv.goal_not_closed hh
      obtain ⟨ctx2, heq2, hcore2, hcl2, hlk2, htk2, hproc2⟩ :=
        processNeighbours_sound (g.neighbours current.vertex)
          (SearchContext.mk ctx.node_storage rest ctx.open_set_index
            (current.vertex :: ctx.closed_set))
          hcore1 hlen0 (hcore1.start_closed_first (by simp))
          ⟨current, hg, rfl, rfl⟩ (List.mem_cons_self _ _)
          (fun _ h => h) (hInv.reach_arena t.idx current hg)
      refine Or.inr (Or.inr ⟨ctx2, ?_, ?_⟩)
      · simp only [searchStep, hpop, hg]
        rw [if_neg hterm, heq2]
      · refine ⟨hcore2, ?_⟩
        intro v hv w c hwc
        rw [hcl2] at hv
        rcases List.mem_cons.mp hv with rfl | hvold
        · rcases hproc2 (w, c) hwc with hle | ⟨i, hi⟩
          · exact Or.inl (by rw [hcl2]; exact hle)
          · exact Or.inr ⟨i, hi⟩
        · rcases hInv.closed_closure v hvold w c hwc with hle | ⟨i, hi⟩
          · exact Or.inl (by rw [hcl2]; exact List.mem_cons_of_mem _ hle)
          · exact Or.inr ⟨i, hlk2 w i hi⟩

/-! ### The invariant at initialisation and along the loop -/

lemma inv_init {g : GraphSearch V C} {start goal : V} :
    Inv g start goal (initState start : LoopState V C).ctx := by
  refine ⟨⟨⟨⟨start, 0, 0, none⟩, by simp [initState], rfl, rfl, rfl⟩,
    ?_, ?_, ?_, ?_, ?_, ?_, ?_, ?_, ?_, ?_, ?_, ?_⟩, ?_⟩
  · intro i nd j hget hpar
    cases i with
    | zero =>
      simp only [initState, List.getElem?_cons_zero, Option.some.injEq] at hget
      subst hget
      simp at hpar
    | succ n => simp [initState] at hget
  · intro i nd hget _
    cases i with
    | zero => rfl
    | succ n => simp [initState] at hget
  · intro v i hw
    simp [initState, lookup] at hw
  · intro i nd hget hne
    cases i with
    | zero => exact absurd rfl hne
    | succ n => simp [initState] at hget
  · intro i j ndi ndj hgi hgj _
    cases i with
    | zero =>
      cases j with
      | zero => rfl
      | succ m => simp [initState] at hgj
    | succ n => simp [initState] at hgi
  · intro t ht
    simp [initState] at ht
    simp [initState, ht]
  · intro v i hw
    simp [initState, lookup] at hw
  · exact Or.inr ⟨0, by simp [initState]⟩
  · intro _ t ht
    simp [initState] at ht
    simp [ht]
  · intro hcon
    exact absurd rfl hcon
  · simp [initState]
  · intro i nd hget
    cases i with
    | zero =>
      simp only [initState, List.getElem?_cons_zero, Option.some.injEq] at hget
      subst hget
      exact ReachG.refl
    | succ n => simp [initState] at hget
  · intro v hv
    simp [initState] at hv

lemma stepN_inv {g : GraphSearch V C} {start goal : V} :
    ∀ (n : Nat) (st st' : LoopState V C), Inv g start goal st.ctx →
      stepN g goal 0 n st = some st' → Inv g start goal st'.ctx := by
  intro n
  induction n with
  | zero =>
    intro st st' h hs
    obtain rfl := Option.some.inj hs
    exact h
  | succ m ih =>
    intro st st' h hs
    rcases st with ⟨ctx, it⟩
    rcases searchStep_sound it h with ⟨_, hstep⟩ |
      ⟨t, rest, cur, _, _, _, hstep, _⟩ | ⟨ctx2, hstep, hinv2⟩
    · simp only [stepN, hstep] at hs
      exact Option.noConfusion hs
    · simp only [stepN, hstep] at hs
      exact Option.noConfusion hs
    · simp only [stepN, hstep] at hs
      exact ih _ _ hinv2 hs

lemma searchLoop_no_invalid {g : GraphSearch V C} {start goal : V} :
    ∀ (fuel : Nat) (st : LoopState V C), Inv g start goal st.ctx →
      searchLoop g goal 0 fuel st ≠ SearchOutcome.invalidAccess := by
  intro fuel
  induction fuel with
  | zero =>
    intro st _
    simp [searchLoop]
  | succ f ih =>
    intro st h
    rcases st with ⟨ctx, it⟩
    rcases searchStep_sound it h with ⟨_, hstep⟩ |
      ⟨t, rest, cur, _, _, _, hstep, _⟩ | ⟨ctx2, hstep, hinv2⟩
    · simp [searchLoop, hstep]
    · simp [searchLoop, hstep]
    · simp only [searchLoop, hstep]
      exact ih _ hinv2

lemma searchLoop_unreachable_empty {g : GraphSearch V C} {start goal : V}
    (hur : ¬ ReachG g start goal) :
    ∀ (fuel : Nat) (st : LoopState V C), Inv g start goal st.ctx →
      st.iter + fuel ≤ g.MAXITERATIONS →
      ∀ p, searchLoop g goal 0 fuel st = SearchOutcome.ok p → p = [] := by
  intro fuel
  induction fuel with
  | zero =>
    intro st _ _ p hp
    simp [searchLoop] at hp
  | succ f ih =>
    intro st h hcap p hp
    rcases st with ⟨ctx, it⟩
    have hcap2 : it + (f + 1) ≤ g.MAXITERATIONS := hcap
    rcases searchStep_sound it h with ⟨_, hstep⟩ |
      ⟨t, rest, cur, _, hg, hterm, hstep, _⟩ | ⟨ctx2, hstep, hinv2⟩
    · simp only [searchLoop, hstep] at hp
      exact (SearchOutcome.ok.inj hp).symm
    · rcases hterm with hgoal | hcap'
      · exact absurd (hgoal ▸ h.reach_arena t.idx cur hg) hur
      · exfalso
        have : it ≥ g.MAXITERATIONS := hcap'
        omega
    · simp only [searchLoop, hstep] at hp
      exact ih ⟨ctx2, it + 1⟩ hinv2 (by show it + 1 + f ≤ g.MAXITERATIONS; omega) p hp

lemma searchLoop_reachable_path {g : GraphSearch V C} {start goal : V}
    (hre : ReachG g start goal) :
    ∀ (fuel : Nat) (st : LoopState V C), Inv g start goal st.ctx →
      st.iter + fuel ≤ g.MAXITERATIONS →
      ∀ p, searchLoop g goal 0 fuel st = SearchOutcome.ok p →
        p ≠ [] ∧ p.head? = some start ∧ p.getLast? = some goal ∧
        List.Chain' (fun u w => ∃ cc, (w, cc) ∈ g.neighbours u) p := by
  intro fuel
  induction fuel with
  | zero =>
    intro st _ _ p hp
    simp [searchLoop] at hp
  | succ f ih =>
    intro st h hcap p hp
    rcases st with ⟨ctx, it⟩
    have hcap2 : it + (f + 1) ≤ g.MAXITERATIONS := hcap
    rcases searchStep_sound it h with ⟨hpop, hstep⟩ |
      ⟨t, rest, cur, _, hg, hterm, hstep, hne, hhead, hlast, hchain⟩ |
      ⟨ctx2, hstep, hinv2⟩
    · -- frontier exhausted: impossible when the goal is reachable
      exfalso
      have hopen : ctx.open_set = [] := popMin_none hpop
      have hclosed_reach : ∀ w, ReachG g start w → w ∈ ctx.closed_set := by
        intro w hw
        induction hw with
        | refl =>
          rcases h.start_token with hs | ⟨cc, hcc⟩
          · exact hs
          · rw [hopen] at hcc
            cases hcc
        | step hu hedge ihu =>
          rcases h.closed_closure _ ihu _ _ hedge with hcw | ⟨i, hi⟩
          · exact hcw
          · by_contra hnc
            obtain ⟨cc, hcc⟩ := h.open_token _ i hi hnc
            rw [hopen] at hcc
            cases hcc
      exact h.goal_not_closed (hclosed_reach goal hre)
    · rcases hterm with hgoal | hcap'
      · simp only [searchLoop, hstep] at hp
        obtain rfl := SearchOutcome.ok.inj hp
        exact ⟨hne, hhead, by rw [hlast, hgoal], hchain⟩
      · exfalso
        have : it ≥ g.MAXITERATIONS := hcap'
        omega
    · simp only [searchLoop, hstep] at hp
      exact ih ⟨ctx2, it + 1⟩ hinv2 (by show it + 1 + f ≤ g.MAXITERATIONS; omega) p hp

lemma parentWalk_steps {g : GraphSearch V C} {start goal : V} {ctx : SearchContext V C}
    (hInv : Inv g start goal ctx) :
    ∀ (i : Nat) (nd : Node V C), ctx.node_storage[i]? = some nd →
      parentWalk ctx.node_storage nd.steps i = some 0 := by
  intro i
  induction i using Nat.strong_induction_on with
  | _ i ih =>
    intro nd hget
    cases hp : nd.parent with
    | none =>
      have hi0 := hInv.parent_none0 i nd hget hp
      subst hi0
      obtain ⟨nd0, h0, _, hs0, _⟩ := hInv.node0
      rw [h0] at hget
      obtain rfl := Option.some.inj hget
      rw [hs0]
      rfl
    | some j =>
      obtain ⟨hji, pd, hgj, hst, _⟩ := hInv.parent_prop i nd j hget hp
      rw [hst]
      show parentWalk ctx.node_storage (pd.steps + 1) i = some 0
      simp only [parentWalk, hget, hp]
      exact ih j hji pd hgj

/-- `find_path_with_context` is the fuelled loop started from the
initialised state; the incoming context and buffer are cleared away. -/
lemma find_path_with_context_eq {g : GraphSearch V C} {c : SearchContext V C}
    {start goal : V} {buf : List V} {fuel : Nat} :
    find_path_with_context g c start goal buf fuel =
      searchLoop g goal 0 fuel (initState start) := rfl

lemma reach_gEdgeless : ∀ w, ReachG gEdgeless 0 w → w = 0 := by
  intro w h
  induction h with
  | refl => rfl
  | step _ hedge _ => simp [gEdgeless] at hedge

lemma not_reach_gEdgeless : ¬ ReachG gEdgeless 0 1 := by
  intro h
  have := reach_gEdgeless 1 h
  omega

lemma reach_gCapOne : ∀ w, ReachG gCapOne 0 w → w = 0 ∨ w = 2 := by
  intro w h
  induction h with
  | refl => exact Or.inl rfl
  | step _ hedge ihu =>
    rcases ihu with rfl | rfl
    · simp [gCapOne] at hedge
      exact Or.inr hedge.1
    · simp [gCapOne] at hedge

/-! ### The claims -/

/-- C1: the claim says the relaxation branch pushes a frontier token whose
arena index is the improved neighbour's own arena index.  The code instead
pushes the `idx` binding of src/lib.rs line 134 (the start node's index 0,
shadowed by the `idx` of line 210 only inside the `None` arm).  Concretely,
on `gBug` (searching 0 → 1): after two expansions the neighbour (vertex 1)
sits at arena index 1 (see the membership index) and its distance has been
relaxed from 10 to 2, but the token just pushed is `⟨0, 2⟩`, whose arena
index 0 is the start node; no token `⟨1, 2⟩` exists.  As a result the whole
search returns the cost-10 path `[0, 1]` even though the cost-2 path
`[0, 2, 1]` exists — contradicting the function's own «Find the shortest
path» documentation, so the claim is right and the code is wrong. -/
theorem C1_relax_pushes_wrong_index :
    stepN gBug 1 0 2 (initState 0) =
      some ⟨⟨[⟨0, 0, 0, none⟩, ⟨1, 2, 1, some 0⟩, ⟨2, 1, 1, some 0⟩],
        [⟨0, 2⟩, ⟨1, 10⟩], [(2, 2), (1, 1)], [2, 0]⟩, 2⟩ ∧
    lookup [((2 : Nat), (2 : Nat)), (1, 1)] 1 = some 1 ∧
    find_path gBug 0 1 10 = SearchOutcome.ok [0, 1] ∧
    ((2, 1) ∈ gBug.neighbours 0 ∧ (1, 1) ∈ gBug.neighbours 2) :=
  ⟨rfl, rfl, rfl, by simp [gBug], by simp [gBug]⟩

/-- C2: the claim says an expanded vertex is never re-expanded and never
re-added to the frontier.  Because the relaxation branch pushes a token for
arena index 0 (see C1), the start vertex — already expanded — is re-added
to the frontier and expanded a second time.  On `gBug` (searching 0 → 1):
after two expansions the visited list is `[2, 0]` yet the frontier holds
the token `⟨0, 2⟩` for the visited start node, and after three expansions
the visited-set insertion of src/lib.rs line 184 has run twice on vertex 0
(visited list `[0, 2, 0]`). -/
theorem C2_start_reexpanded :
    (stepN gBug 1 0 2 (initState 0)).map
      (fun st => (st.ctx.closed_set, st.ctx.open_set)) =
      some ([2, 0], [⟨0, 2⟩, ⟨1, 10⟩]) ∧
    (stepN gBug 1 0 3 (initState 0)).map (fun st => st.ctx.closed_set) =
      some [0, 2, 0] :=
  ⟨rfl, rfl⟩

/-- C3: at every loop boundary of a call every arena index used by the
algorithm — token indices, membership-index entries, parent links — is
strictly below the arena length, and consequently the checked (`Option`)
embedding of the unchecked accesses never takes its out-of-bounds branch
for any amount of fuel. -/
theorem C3_indices_in_bounds (g : GraphSearch V C) (start goal : V) :
    (∀ fuel, searchLoop g goal 0 fuel (initState start) ≠
      SearchOutcome.invalidAccess) ∧
    (∀ (n : Nat) (st : LoopState V C), stepN g goal 0 n (initState start) = some st →
      (∀ t ∈ st.ctx.open_set, t.idx < st.ctx.node_storage.length) ∧
      (∀ v i, lookup st.ctx.open_set_index v = some i →
        i < st.ctx.node_storage.length) ∧
      (∀ (i : Nat) (nd : Node V C) (j : Nat), st.ctx.node_storage[i]? = some nd →
        nd.parent = some j → j < st.ctx.node_storage.length)) := by
  constructor
  · intro fuel
    exact searchLoop_no_invalid fuel (initState start) inv_init
  · intro n st hs
    have hInv := stepN_inv n (initState start) st inv_init hs
    refine ⟨hInv.token_valid, ?_, ?_⟩
    · intro v i hw
      obtain ⟨_, nd, hnd, _⟩ := hInv.index_valid v i hw
      exact get?_some_lt hnd
    · intro i nd j hget hpar
      obtain ⟨hji, pd, hgj, _⟩ := hInv.parent_prop i nd j hget hpar
      exact get?_some_lt hgj

/-- Witness for C3 at a concrete run on `gOneEdge` (0 → 2, goal 1). -/
theorem C3_witness :
    (searchLoop gOneEdge 1 0 3 (initState 0) ≠ SearchOutcome.invalidAccess) ∧
    (∀ t ∈ st1OneEdge.ctx.open_set,
      t.idx < st1OneEdge.ctx.node_storage.length) :=
  ⟨(C3_indices_in_bounds gOneEdge 0 1).1 3,
    ((C3_indices_in_bounds gOneEdge 0 1).2 1 st1OneEdge rfl).1⟩

/-- C4: at every loop boundary of a call, arena entry 0 is the start node
(start vertex, zero steps, no parent), it is the unique entry without a
parent, each parent link decreases the `steps` field by exactly one, and
walking exactly `steps` parent links from any node arrives at index 0. -/
theorem C4_parent_chain (g : GraphSearch V C) (start goal : V) :
    ∀ (n : Nat) (st : LoopState V C), stepN g goal 0 n (initState start) = some st →
      (∃ nd0, st.ctx.node_storage[0]? = some nd0 ∧ nd0.vertex = start ∧
        nd0.steps = 0 ∧ nd0.parent = none) ∧
      (∀ (i : Nat) (nd : Node V C), st.ctx.node_storage[i]? = some nd →
        nd.parent = none → i = 0) ∧
      (∀ (i : Nat) (nd : Node V C) (j : Nat), st.ctx.node_storage[i]? = some nd →
        nd.parent = some j → ∃ pd, st.ctx.node_storage[j]? = some pd ∧
          nd.steps = pd.steps + 1) ∧
      (∀ (i : Nat) (nd : Node V C), st.ctx.node_storage[i]? = some nd →
        parentWalk st.ctx.node_storage nd.steps i = some 0) := by
  intro n st hs
  have hInv := stepN_inv n (initState start) st inv_init hs
  refine ⟨hInv.node0, hInv.parent_none0, ?_, parentWalk_steps hInv⟩
  intro i nd j hget hpar
  obtain ⟨_, pd, hgj, hst, _⟩ := hInv.parent_prop i nd j hget hpar
  exact ⟨pd, hgj, hst⟩

/-- Witness for C4: after one expansion on `gOneEdge`, the parent walk of
the discovered node (arena index 1, one step) reaches index 0. -/
theorem C4_witness :
    parentWalk st1OneEdge.ctx.node_storage 1 1 = some 0 :=
  (C4_parent_chain gOneEdge 0 1 1 st1OneEdge (by rfl)).2.2.2 1 ⟨2, 1, 1, some 0⟩ rfl

/-- C5: for every graph capability and every vertex, searching from a
vertex to itself returns the single-element path holding that vertex: the
very first pop is the start token and the termination check fires before
any expansion (so the iteration cap is irrelevant). -/
theorem C5_start_eq_goal (g : GraphSearch V C) (v : V) (fuel : Nat)
    (h : 0 < fuel) : find_path g v v fuel = SearchOutcome.ok [v] := by
  obtain ⟨f, rfl⟩ := Nat.exists_eq_succ_of_ne_zero (Nat.pos_iff_ne_zero.mp h)
  have hstep : searchStep g v 0 (initState v : LoopState V C) =
      SearchStep.done (some [v]) := by
    simp [searchStep, initState, popMin, reconstructPath, writeChain, collectSome]
  show searchLoop g v 0 (f + 1) (initState v) = SearchOutcome.ok [v]
  simp [searchLoop, hstep]

/-- Witness for C5 on the edgeless graph with one unit of fuel. -/
theorem C5_witness :
    0 < 1 ∧ find_path gEdgeless 0 0 1 = SearchOutcome.ok [0] :=
  ⟨by decide, C5_start_eq_goal gEdgeless 0 1 (by decide)⟩

/-- C6 counterexample: the claim quantifies over *every* graph capability,
but with a finite iteration cap the cap-triggered early exit produces a
non-empty path even for an unreachable goal.  On `gCapOne` (one edge 0→2,
`MAXITERATIONS = 1`, goal 1 unreachable) the search returns `[0, 2]`, not
`[]`. -/
theorem C6_counterexample :
    ¬ ReachG gCapOne 0 1 ∧ find_path gCapOne 0 1 5 = SearchOutcome.ok [0, 2] := by
  constructor
  · intro h
    rcases reach_gCapOne 1 h with h1 | h1 <;> omega
  · rfl

/-- C6 (amended): for every graph capability, if the goal is unreachable
from the start and the iteration cap is not reached (`fuel ≤ MAXITERATIONS`
covers every run under the default cap of `usize::MAX`), then whenever the
call returns, the output buffer is empty and no error value is produced
(`find_path` is `find_path_with_context` on a fresh context and buffer). -/
theorem C6_unreachable_empty (g : GraphSearch V C) (start goal : V)
    (c : SearchContext V C) (buf : List V) (fuel : Nat) (p : List V)
    (hur : ¬ ReachG g start goal) (hcap : fuel ≤ g.MAXITERATIONS)
    (hrun : find_path_with_context g c start goal buf fuel = SearchOutcome.ok p) :
    p = [] := by
  have hrun' : searchLoop g goal 0 fuel (initState start) = SearchOutcome.ok p :=
    hrun
  exact searchLoop_unreachable_empty hur fuel (initState start) inv_init
    (by show 0 + fuel ≤ g.MAXITERATIONS; omega) p hrun'

/-- Witness for C6 on the edgeless graph. -/
theorem C6_witness :
    ¬ ReachG gEdgeless 0 1 ∧ find_path gEdgeless 0 1 5 = SearchOutcome.ok [] ∧
      ([] : List Nat) = [] :=
  ⟨not_reach_gEdgeless, rfl,
    C6_unreachable_empty gEdgeless 0 1 (SearchContext.default Nat Nat) [] 5 []
      not_reach_gEdgeless (by decide) rfl⟩

/-- C7: once the expansion counter has reached `MAXITERATIONS`, the next
pop terminates the search and the output path is reconstructed from the
node popped at that moment, whether or not its vertex is the goal (no
hypothesis relates `current.vertex` to the goal); the second conjunct
records that the trait-level default of the cap is `usize::MAX`, making
the default cap effectively unbounded. -/
theorem C7_iteration_cap (g : GraphSearch V C) (goal : V) (st : LoopState V C)
    (t : Token C) (rest : List (Token C)) (current : Node V C)
    (hpop : popMin st.ctx.open_set = some (t, rest))
    (hget : st.ctx.node_storage[t.idx]? = some current)
    (hcap : st.iter ≥ g.MAXITERATIONS) :
    searchStep g goal 0 st =
      SearchStep.done (reconstructPath st.ctx.node_storage t.idx) ∧
    ∀ (h : V → V → C) (nb : V → List (V × C)),
      ({ heuristic := h, neighbours := nb } : GraphSearch V C).MAXITERATIONS =
        USIZE_MAX := by
  constructor
  · simp only [searchStep, hpop, hget]
    rw [if_pos (Or.inr hcap)]
  · intro h nb
    rfl

/-- Witness for C7: a state with `iter = 5` against a cap of 1; the popped
node's vertex (0) is not the goal (1), yet the step reconstructs from it. -/
theorem C7_witness :
    searchStep gCapOne 1 0 ⟨⟨[⟨0, 0, 0, none⟩], [⟨0, 0⟩], [], []⟩, 5⟩ =
      SearchStep.done (reconstructPath [⟨0, 0, 0, none⟩] 0) :=
  (C7_iteration_cap gCapOne 1 ⟨⟨[⟨0, 0, 0, none⟩], [⟨0, 0⟩], [], []⟩, 5⟩
    ⟨0, 0⟩ [] ⟨0, 0, 0, none⟩ rfl rfl (by decide)).1

/-- C8: with the unbounded (default) iteration cap, whenever the goal is
reachable from the start and `find_path` returns, the returned sequence is
non-empty, starts at the start vertex, ends at the goal vertex, and every
consecutive pair is connected by an edge reported by the neighbour
operation. -/
theorem C8_reachable_path (g : GraphSearch V C) (start goal : V) (fuel : Nat)
    (p : List V) (hcap : g.MAXITERATIONS = USIZE_MAX) (hfuel : fuel ≤ USIZE_MAX)
    (hre : ReachG g start goal)
    (hrun : find_path g start goal fuel = SearchOutcome.ok p) :
    p ≠ [] ∧ p.head? = some start ∧ p.getLast? = some goal ∧
      List.Chain' (fun u w => ∃ cc, (w, cc) ∈ g.neighbours u) p := by
  have hrun' : searchLoop g goal 0 fuel (initState start) = SearchOutcome.ok p :=
    hrun
  exact searchLoop_reachable_path hre fuel (initState start) inv_init
    (by show 0 + fuel ≤ g.MAXITERATIONS; rw [hcap]; omega) p hrun'

/-- Witness for C8 on the one-edge graph 0 → 2. -/
theorem C8_witness :
    ReachG gOneEdge 0 2 ∧ find_path gOneEdge 0 2 5 = SearchOutcome.ok [0, 2] ∧
      (([0, 2] : List Nat) ≠ [] ∧ ([0, 2] : List Nat).head? = some 0 ∧
        ([0, 2] : List Nat).getLast? = some 2 ∧
        List.Chain' (fun u w => ∃ cc, (w, cc) ∈ gOneEdge.neighbours u) [0, 2]) := by
  have hre : ReachG gOneEdge 0 2 :=
    ReachG.step ReachG.refl
      (show ((2 : Nat), (1 : Nat)) ∈ gOneEdge.neighbours 0 by simp [gOneEdge])
  exact ⟨hre, rfl, C8_reachable_path gOneEdge 0 2 5 [0, 2] rfl (by decide) hre rfl⟩

/-- C9: `clear` is idempotent and erases all observable state (the model
cannot observe retained capacity), so the result of the context-reusing
entry point never depends on the incoming context: in particular, the
second of two sequential calls on one context instance equals a call on a
freshly created context, whatever the first call left behind. -/
theorem C9_clear_idempotent_fresh :
    (∀ (c : SearchContext V C),
      SearchContext.clear (SearchContext.clear c) = SearchContext.clear c) ∧
    (∀ (c : SearchContext V C), SearchContext.clear c = SearchContext.default V C) ∧
    (∀ (g : GraphSearch V C) (c₁ c₂ : SearchContext V C) (s t : V) (b : List V)
      (fuel : Nat), find_path_with_context g c₁ s t b fuel =
        find_path_with_context g c₂ s t b fuel) :=
  ⟨fun _ => rfl, fun _ => rfl, fun _ _ _ _ _ _ _ => rfl⟩

/-- C10: the caller-supplied output buffer is cleared on entry, so its
prior contents never influence the final contents of the buffer: two runs
differing only in the buffer's initial contents produce identical
outcomes. -/
theorem C10_buffer_independent :
    ∀ (g : GraphSearch V C) (c : SearchContext V C) (s t : V) (b₁ b₂ : List V)
      (fuel : Nat), find_path_with_context g c s t b₁ fuel =
        find_path_with_context g c s t b₂ fuel :=
  fun _ _ _ _ _ _ _ => rfl

end Rutt
